import Mathlib

/-!
# Counting bloom filter — verification of the core against its spec

Shallow embedding of the counting-bloom-filter core of the repository:
`getHashIndices` / `calculateFalsePositiveRate` (the hash/statistics module)
and the `handleInsert` / `handleCheck` / `handleDelete` handlers of the app.

Items (JS strings) are modelled as their UTF-16 code-unit sequences
(`Word := List Nat`); JS string equality is exactly code-unit-sequence
equality.  Counters are modelled as `Int` (JS numbers reached only by
integer increments/decrements here), so non-negativity is a real theorem
rather than a typing artifact.  32-bit wrapping arithmetic (`Math.imul`,
`>>> 0`) is modelled as arithmetic on `Nat` reduced `% 2^32`.
-/

set_option maxHeartbeats 1000000

/-- A JS string, as its sequence of UTF-16 code units (`charCodeAt`). -/
abbrev Word := List Nat

/-- `2^32`, the modulus of JS unsigned 32-bit arithmetic. -/
def U32 : Nat := 4294967296

/-- One step of the FNV-1a loop body: `hash ^= c; hash = Math.imul(hash, 16777619)`,
in unsigned-32-bit rendering. -/
def fnv1aStep (hash c : Nat) : Nat :=
  ((hash ^^^ c) * 16777619) % U32

/-- The source's seeded FNV-1a hash: starts from `2166136261 ^ seed` and folds
every code unit of the input with `fnv1aStep`; the final `>>> 0` of the source
is the identity in this unsigned rendering. -/
def fnv1a (str : Word) (seed : Nat) : Nat :=
  str.foldl fnv1aStep (2166136261 ^^^ seed)

/-- The source's `getHashIndices`: double hashing
`h_i(x) = ((h1(x) + i * h2(x)) >>> 0) % size` for `i = 0 .. k-1`. -/
def getHashIndices (input : Word) (size k : Nat) : List Nat :=
  let h1 := fnv1a input 0x811c9dc5
  let h2 := fnv1a input 0x9e3779b9
  (List.range k).map (fun i => ((h1 + i * h2) % U32) % size)

/-- The source's `calculateFalsePositiveRate`: the asymptotic approximation
`(1 - e^(-k*n/m))^k`, over the reals (the JS code computes it in
floating point). -/
noncomputable def calculateFalsePositiveRate (m k n : Nat) : ℝ :=
  (1 - Real.exp (-(k : ℝ) * n / m)) ^ k

/-- The filter's core state: the counter array (`bitArray` in the source) and
the ground-truth item list (`items`). -/
structure BloomState where
  bits : List Int
  items : List Word
deriving DecidableEq, Repr

/-- The fresh filter: `Array(m).fill(0)` counters and no items. -/
def initState (m : Nat) : BloomState :=
  { bits := List.replicate m 0, items := [] }

/-- Point update of the counter list (`newBits[idx] = f(newBits[idx])`);
a no-op out of range (the handlers only ever pass indices `< m`). -/
def updateAt (f : Int → Int) : Nat → List Int → List Int
  | _, [] => []
  | 0, b :: bs => f b :: bs
  | n + 1, b :: bs => b :: updateAt f n bs

/-- The insert loop `indices.forEach(idx => { newBits[idx]++ })`. -/
def applyInserts (bits : List Int) (indices : List Nat) : List Int :=
  indices.foldl (fun bs idx => updateAt (fun b => b + 1) idx bs) bits

/-- The delete loop `indices.forEach(idx => { if (newBits[idx] > 0) newBits[idx]-- })`. -/
def applyDeletes (bits : List Int) (indices : List Nat) : List Int :=
  indices.foldl (fun bs idx => updateAt (fun b => if 0 < b then b - 1 else b) idx bs) bits

/-- `handleInsert` of the app (state part): increment each derived index,
append the word to `items`. -/
def handleInsert (m k : Nat) (s : BloomState) (w : Word) : BloomState :=
  let indices := getHashIndices w m k
  { bits := applyInserts s.bits indices, items := s.items ++ [w] }

/-- The record produced by `handleCheck` (the fields of `OperationResult`
relevant to a check). -/
structure CheckResult where
  indices : List Nat
  missingIndices : List Nat
  isMatch : Bool
  isFalsePositive : Bool
deriving DecidableEq, Repr

/-- `handleCheck` of the app: compute the indices, collect the indices whose
counter is `0` (`bitArray[idx] === 0`), match iff none is missing, flag a
false positive iff matched but the word is not in `items`
(`items.includes(word)`). A pure query: no state is returned. -/
def handleCheck (m k : Nat) (s : BloomState) (w : Word) : CheckResult :=
  let indices := getHashIndices w m k
  let missingIndices := indices.filter (fun idx => decide (s.bits.getD idx 0 = 0))
  let isMatch := decide (missingIndices.length = 0)
  let actuallyExists := decide (w ∈ s.items)
  { indices := indices
    missingIndices := missingIndices
    isMatch := isMatch
    isFalsePositive := isMatch && !actuallyExists }

/-- The error a delete of an absent item surfaces (the source raises a user
alert `"... is not in the set, cannot delete."` and returns without touching
state). -/
inductive DeleteError where
  | itemNotPresent
deriving DecidableEq, Repr

/-- Removal of the first occurrence of a word from the item list (the source's
`indexOf` + `splice(itemIndex, 1)`). -/
def removeFirst (w : Word) : List Word → List Word
  | [] => []
  | x :: xs => if x = w then xs else x :: removeFirst w xs

/-- `handleDelete` of the app: if the word is absent from `items`
(`items.includes(word)` fails), fail without mutating anything; otherwise
decrement each derived index (clamped at zero) and remove the first
occurrence of the word from `items`. -/
def handleDelete (m k : Nat) (s : BloomState) (w : Word) : Except DeleteError BloomState :=
  if w ∈ s.items then
    let indices := getHashIndices w m k
    Except.ok { bits := applyDeletes s.bits indices, items := removeFirst w s.items }
  else
    Except.error DeleteError.itemNotPresent

/-- The user-driven operations of the app. -/
inductive Op where
  | insert (w : Word)
  | check (w : Word)
  | delete (w : Word)

/-- State transition of one operation: check never touches state, a failed
delete leaves the state unchanged. -/
def step (m k : Nat) (s : BloomState) : Op → BloomState
  | Op.insert w => handleInsert m k s w
  | Op.check _ => s
  | Op.delete w =>
    match handleDelete m k s w with
    | Except.ok s' => s'
    | Except.error _ => s

/-- Run a sequence of operations from a state. -/
def run (m k : Nat) (s : BloomState) (ops : List Op) : BloomState :=
  ops.foldl (step m k) s

/-- A state reachable from the fresh filter by some operation sequence. -/
def Reachable (m k : Nat) (s : BloomState) : Prop :=
  ∃ ops : List Op, run m k (initState m) ops = s

/-- The number of (item occurrence, hash position) pairs currently mapping to
slot `j`: the exact value every counter carries in a reachable state. -/
def slotLoad (m k : Nat) (items : List Word) (j : Nat) : Nat :=
  (items.map (fun w => (getHashIndices w m k).count j)).sum

/-- The reachable-state invariant: the counter list has length `m` and each
counter equals its `slotLoad`. -/
def BloomInv (m k : Nat) (s : BloomState) : Prop :=
  s.bits.length = m ∧ ∀ j : Nat, s.bits.getD j 0 = (slotLoad m k s.items j : Int)

theorem updateAt_length (f : Int → Int) (n : Nat) (l : List Int) :
    (updateAt f n l).length = l.length := by
  induction l generalizing n with
  | nil => cases n <;> rfl
  | cons b bs ih =>
    cases n with
    | zero => rfl
    | succ n => simp [updateAt, ih]

theorem updateAt_getD_ne (f : Int → Int) {n j : Nat} (h : j ≠ n) (l : List Int) :
    (updateAt f n l).getD j 0 = l.getD j 0 := by
  induction l generalizing n j with
  | nil => cases n <;> rfl
  | cons b bs ih =>
    cases n with
    | zero =>
      cases j with
      | zero => exact absurd rfl h
      | succ j => rfl
    | succ n =>
      cases j with
      | zero => rfl
      | succ j =>
        have hjn : j ≠ n := fun hh => h (by omega)
        simpa [updateAt] using ih hjn

theorem updateAt_getD_eq (f : Int → Int) {n : Nat} (l : List Int) (h : n < l.length) :
    (updateAt f n l).getD n 0 = f (l.getD n 0) := by
  induction l generalizing n with
  | nil => simp at h
  | cons b bs ih =>
    cases n with
    | zero => rfl
    | succ n =>
      simpa [updateAt] using ih (by simpa using h)

theorem applyInserts_length (bits : List Int) (L : List Nat) :
    (applyInserts bits L).length = bits.length := by
  induction L generalizing bits with
  | nil => rfl
  | cons a L ih =>
    show (applyInserts (updateAt _ a bits) L).length = _
    rw [ih, updateAt_length]

theorem applyInserts_getD (bits : List Int) (L : List Nat)
    (hL : ∀ x ∈ L, x < bits.length) (j : Nat) :
    (applyInserts bits L).getD j 0 = bits.getD j 0 + (L.count j : Int) := by
  induction L generalizing bits with
  | nil => simp [applyInserts]
  | cons a L ih =>
    have ha : a < bits.length := hL a (List.mem_cons_self a L)
    have hL' : ∀ x ∈ L, x < (updateAt (fun b => b + 1) a bits).length := by
      intro x hx
      rw [updateAt_length]
      exact hL x (List.mem_cons_of_mem a hx)
    show (applyInserts (updateAt _ a bits) L).getD j 0 = _
    rw [ih _ hL']
    by_cases hj : j = a
    · subst hj
      rw [updateAt_getD_eq _ bits ha, List.count_cons_self]
      push_cast
      ring
    · rw [updateAt_getD_ne _ hj]
      have hne : a ≠ j := fun hh => hj hh.symm
      have hc : (a :: L).count j = L.count j := by
        simp [List.count_cons, hne]
      rw [hc]

theorem applyDeletes_length (bits : List Int) (L : List Nat) :
    (applyDeletes bits L).length = bits.length := by
  induction L generalizing bits with
  | nil => rfl
  | cons a L ih =>
    show (applyDeletes (updateAt _ a bits) L).length = _
    rw [ih, updateAt_length]

theorem applyDeletes_getD (bits : List Int) (L : List Nat)
    (hL : ∀ x ∈ L, x < bits.length)
    (hcnt : ∀ j : Nat, (L.count j : Int) ≤ bits.getD j 0) (j : Nat) :
    (applyDeletes bits L).getD j 0 = bits.getD j 0 - (L.count j : Int) := by
  induction L generalizing bits with
  | nil => simp [applyDeletes]
  | cons a L ih =>
    have ha : a < bits.length := hL a (List.mem_cons_self a L)
    have hself : (a :: L).count a = L.count a + 1 := List.count_cons_self a L
    have hpos : 0 < bits.getD a 0 := by
      have h1 := hcnt a
      omega
    have hstep : (updateAt (fun b => if 0 < b then b - 1 else b) a bits).getD a 0
        = bits.getD a 0 - 1 := by
      rw [updateAt_getD_eq _ bits ha, if_pos hpos]
    have hL' : ∀ x ∈ L, x < (updateAt (fun b => if 0 < b then b - 1 else b) a bits).length := by
      intro x hx
      rw [updateAt_length]
      exact hL x (List.mem_cons_of_mem a hx)
    have hcnt' : ∀ j : Nat,
        (L.count j : Int) ≤ (updateAt (fun b => if 0 < b then b - 1 else b) a bits).getD j 0 := by
      intro j
      by_cases hj : j = a
      · subst hj
        have := hcnt j
        rw [hstep]
        omega
      · rw [updateAt_getD_ne _ hj]
        have := hcnt j
        have hne : a ≠ j := fun hh => hj hh.symm
        have hc : (a :: L).count j = L.count j := by
          simp [List.count_cons, hne]
        omega
    show (applyDeletes (updateAt _ a bits) L).getD j 0 = _
    rw [ih _ hL' hcnt']
    by_cases hj : j = a
    · subst hj
      rw [hstep, hself]
      push_cast
      ring
    · rw [updateAt_getD_ne _ hj]
      have hne : a ≠ j := fun hh => hj hh.symm
      have hc : (a :: L).count j = L.count j := by
        simp [List.count_cons, hne]
      rw [hc]

theorem getHashIndices_length (w : Word) (m k : Nat) :
    (getHashIndices w m k).length = k := by
  simp [getHashIndices]

theorem getHashIndices_lt (w : Word) {m : Nat} (hm : 0 < m) (k : Nat) :
    ∀ idx ∈ getHashIndices w m k, idx < m := by
  intro idx hidx
  simp only [getHashIndices, List.mem_map, List.mem_range] at hidx
  obtain ⟨i, _, rfl⟩ := hidx
  exact Nat.mod_lt _ hm

theorem slotLoad_append (m k : Nat) (items : List Word) (w : Word) (j : Nat) :
    slotLoad m k (items ++ [w]) j
      = slotLoad m k items j + (getHashIndices w m k).count j := by
  simp [slotLoad]

theorem slotLoad_perm {items1 items2 : List Word} (h : items1.Perm items2) (m k j : Nat) :
    slotLoad m k items1 j = slotLoad m k items2 j :=
  (h.map _).sum_eq

theorem removeFirst_perm {w : Word} {l : List Word} (hw : w ∈ l) :
    l.Perm (w :: removeFirst w l) := by
  induction l with
  | nil => cases hw
  | cons a l ih =>
    by_cases h : a = w
    · subst h
      simp [removeFirst]
    · have hw' : w ∈ l := by
        rcases List.mem_cons.mp hw with h' | h'
        · exact absurd h'.symm h
        · exact h'
      have h1 : (a :: l).Perm (a :: w :: removeFirst w l) := (ih hw').cons a
      have h2 : (a :: w :: removeFirst w l).Perm (w :: a :: removeFirst w l) :=
        List.Perm.swap w a _
      have h3 : w :: removeFirst w (a :: l) = w :: a :: removeFirst w l := by
        simp [removeFirst, h]
      rw [h3]
      exact h1.trans h2

theorem slotLoad_removeFirst (m k : Nat) {w : Word} {items : List Word} (hw : w ∈ items)
    (j : Nat) :
    slotLoad m k items j
      = (getHashIndices w m k).count j + slotLoad m k (removeFirst w items) j := by
  rw [slotLoad_perm (removeFirst_perm hw) m k j]
  simp [slotLoad]

theorem bloomInv_init (m k : Nat) : BloomInv m k (initState m) := by
  refine ⟨by simp [initState], ?_⟩
  intro j
  simp [initState, slotLoad]

theorem bloomInv_insert (m k : Nat) (hm : 0 < m) {s : BloomState} (hs : BloomInv m k s)
    (w : Word) : BloomInv m k (handleInsert m k s w) := by
  obtain ⟨hlen, hval⟩ := hs
  refine ⟨?_, ?_⟩
  · show (applyInserts s.bits _).length = m
    rw [applyInserts_length, hlen]
  · intro j
    have hidx : ∀ x ∈ getHashIndices w m k, x < s.bits.length := by
      intro x hx
      rw [hlen]
      exact getHashIndices_lt w hm k x hx
    show (applyInserts s.bits _).getD j 0 = (slotLoad m k (s.items ++ [w]) j : Int)
    rw [applyInserts_getD _ _ hidx, hval j, slotLoad_append]
    push_cast
    ring

theorem bloomInv_delete (m k : Nat) (hm : 0 < m) {s : BloomState} (hs : BloomInv m k s)
    {w : Word} (hw : w ∈ s.items) :
    BloomInv m k { bits := applyDeletes s.bits (getHashIndices w m k),
                   items := removeFirst w s.items } := by
  obtain ⟨hlen, hval⟩ := hs
  have hidx : ∀ x ∈ getHashIndices w m k, x < s.bits.length := by
    intro x hx
    rw [hlen]
    exact getHashIndices_lt w hm k x hx
  have hcnt : ∀ j : Nat, ((getHashIndices w m k).count j : Int) ≤ s.bits.getD j 0 := by
    intro j
    rw [hval j, slotLoad_removeFirst m k hw j]
    push_cast
    omega
  refine ⟨?_, ?_⟩
  · show (applyDeletes s.bits _).length = m
    rw [applyDeletes_length, hlen]
  · intro j
    show (applyDeletes s.bits _).getD j 0 = (slotLoad m k (removeFirst w s.items) j : Int)
    rw [applyDeletes_getD _ _ hidx hcnt, hval j, slotLoad_removeFirst m k hw j]
    push_cast
    ring

theorem bloomInv_step (m k : Nat) (hm : 0 < m) {s : BloomState} (hs : BloomInv m k s)
    (op : Op) : BloomInv m k (step m k s op) := by
  cases op with
  | insert w => exact bloomInv_insert m k hm hs w
  | check w => exact hs
  | delete w =>
    show BloomInv m k (match handleDelete m k s w with
      | Except.ok s' => s'
      | Except.error _ => s)
    by_cases hw : w ∈ s.items
    · rw [handleDelete, if_pos hw]
      exact bloomInv_delete m k hm hs hw
    · rw [handleDelete, if_neg hw]
      exact hs

theorem bloomInv_run (m k : Nat) (hm : 0 < m) {s : BloomState} (hs : BloomInv m k s)
    (ops : List Op) : BloomInv m k (run m k s ops) := by
  induction ops generalizing s with
  | nil => exact hs
  | cons op ops ih => exact ih (bloomInv_step m k hm hs op)

theorem reachable_bloomInv {m k : Nat} (hm : 0 < m) {s : BloomState}
    (hs : Reachable m k s) : BloomInv m k s := by
  obtain ⟨ops, rfl⟩ := hs
  exact bloomInv_run m k hm (bloomInv_init m k) ops

theorem updateAt_nonneg {f : Int → Int} (hf : ∀ a : Int, 0 ≤ a → 0 ≤ f a) (n : Nat)
    {l : List Int} (hl : ∀ b ∈ l, 0 ≤ b) : ∀ b ∈ updateAt f n l, 0 ≤ b := by
  induction l generalizing n with
  | nil => cases n <;> simp [updateAt]
  | cons c cs ih =>
    cases n with
    | zero =>
      intro b hb
      rcases List.mem_cons.mp hb with hb | hb
      · exact hb ▸ hf c (hl c (List.mem_cons_self c cs))
      · exact hl b (List.mem_cons_of_mem c hb)
    | succ n =>
      intro b hb
      rcases List.mem_cons.mp hb with hb | hb
      · exact hb ▸ hl c (List.mem_cons_self c cs)
      · exact ih n (fun x hx => hl x (List.mem_cons_of_mem c hx)) b hb

theorem applyInserts_nonneg {bits : List Int} (hb : ∀ b ∈ bits, 0 ≤ b) (L : List Nat) :
    ∀ b ∈ applyInserts bits L, 0 ≤ b := by
  induction L generalizing bits with
  | nil => exact hb
  | cons a L ih =>
    exact ih (updateAt_nonneg (fun x hx => by omega) a hb)

theorem applyDeletes_nonneg {bits : List Int} (hb : ∀ b ∈ bits, 0 ≤ b) (L : List Nat) :
    ∀ b ∈ applyDeletes bits L, 0 ≤ b := by
  induction L generalizing bits with
  | nil => exact hb
  | cons a L ih =>
    refine ih (updateAt_nonneg (fun x hx => ?_) a hb)
    by_cases hx0 : 0 < x <;> simp [hx0] <;> omega

theorem step_nonneg (m k : Nat) {s : BloomState} (hs : ∀ b ∈ s.bits, 0 ≤ b) (op : Op) :
    ∀ b ∈ (step m k s op).bits, 0 ≤ b := by
  cases op with
  | insert w => exact applyInserts_nonneg hs _
  | check w => exact hs
  | delete w =>
    by_cases hw : w ∈ s.items
    · have hdel : step m k s (Op.delete w)
          = { bits := applyDeletes s.bits (getHashIndices w m k),
              items := removeFirst w s.items } := by
        simp [step, handleDelete, hw]
      rw [hdel]
      exact applyDeletes_nonneg hs _
    · have hdel : step m k s (Op.delete w) = s := by
        simp [step, handleDelete, hw]
      rw [hdel]
      exact hs

theorem run_nonneg (m k : Nat) {s : BloomState} (hs : ∀ b ∈ s.bits, 0 ≤ b)
    (ops : List Op) : ∀ b ∈ (run m k s ops).bits, 0 ≤ b := by
  induction ops generalizing s with
  | nil => exact hs
  | cons op ops ih => exact ih (step_nonneg m k hs op)

theorem reachable_nonneg {m k : Nat} {s : BloomState} (hs : Reachable m k s) :
    ∀ b ∈ s.bits, 0 ≤ b := by
  obtain ⟨ops, rfl⟩ := hs
  refine run_nonneg m k ?_ ops
  intro b hb
  rw [List.eq_of_mem_replicate hb]

theorem getD_nonneg {l : List Int} (hl : ∀ b ∈ l, 0 ≤ b) (n : Nat) : 0 ≤ l.getD n 0 := by
  by_cases h : n < l.length
  · rw [List.getD_eq_getElem _ _ h]
    exact hl _ (List.getElem_mem h)
  · rw [List.getD_eq_default _ _ (by omega)]

theorem list_eq_of_getD {l1 l2 : List Int} (hlen : l1.length = l2.length)
    (h : ∀ j : Nat, l1.getD j 0 = l2.getD j 0) : l1 = l2 := by
  apply List.ext_getElem hlen
  intro n h1 h2
  have hn := h n
  rwa [List.getD_eq_getElem _ _ h1, List.getD_eq_getElem _ _ h2] at hn

/-- C3: Counter non-negativity invariant: starting from a fresh filter (all
counters 0), after every sequence of Insert/Check/Delete operations every
counter in the array is ≥ 0; no delete sequence, including deletes attempted
for absent items, can drive any counter below zero. -/
theorem claimC3_counter_nonneg {m k : Nat} {s : BloomState} (hs : Reachable m k s) :
    ∀ b ∈ s.bits, 0 ≤ b :=
  reachable_nonneg hs

/-- Witness for C3 at a concrete adversarial run (insert one word, then delete
a never-inserted word and over-delete the first one). -/
theorem claimC3_counter_nonneg_witness :
    0 ≤ (run 20 3 (initState 20)
          [Op.insert [97], Op.delete [98], Op.delete [97], Op.delete [97]]).bits.getD 0 0 :=
  @claimC3_counter_nonneg 20 3
    (run 20 3 (initState 20) [Op.insert [97], Op.delete [98], Op.delete [97], Op.delete [97]])
    ⟨[Op.insert [97], Op.delete [98], Op.delete [97], Op.delete [97]], rfl⟩
    ((run 20 3 (initState 20)
        [Op.insert [97], Op.delete [98], Op.delete [97], Op.delete [97]]).bits.getD 0 0)
    (by decide)

/-- C9: Check is a pure query: for every item and every filter state, a check
leaves the counter array and the item list unchanged (only the ephemeral
operation record is produced by `handleCheck`). -/
theorem claimC9_check_pure (m k : Nat) (s : BloomState) (w : Word) :
    step m k s (Op.check w) = s :=
  rfl

/-- C5: Delete error handling and atomicity: deleting an item absent from
`items` fails with the ItemNotPresent error (the source's alert path) and
leaves the counter array and the item list completely unchanged; the
membership check precedes any counter mutation. -/
theorem claimC5_delete_absent (m k : Nat) (s : BloomState) (w : Word)
    (hw : w ∉ s.items) :
    handleDelete m k s w = Except.error DeleteError.itemNotPresent
      ∧ step m k s (Op.delete w) = s := by
  constructor
  · rw [handleDelete, if_neg hw]
  · simp [step, handleDelete, hw]

/-- Witness for C5: `Delete("ghost")` on the empty filter fails and changes
nothing (spec scenario 4). -/
theorem claimC5_delete_absent_witness :
    handleDelete 20 3 (initState 20) [103, 104, 111, 115, 116]
        = Except.error DeleteError.itemNotPresent
      ∧ step 20 3 (initState 20) (Op.delete [103, 104, 111, 115, 116]) = initState 20 :=
  claimC5_delete_absent 20 3 (initState 20) [103, 104, 111, 115, 116] (by decide)

/-- C1: No false negatives: on a validly constructed filter, after any
sequence of operations, if item `x` has been inserted more times than it has
been successfully deleted — i.e. its net multiplicity in `items` is positive —
then a check of `x` reports `isMatch = true`. -/
theorem claimC1_no_false_negatives {m k : Nat} (hm : 1 ≤ m) (h' : 1 ≤ k)
    {s : BloomState} (hs : Reachable m k s) {x : Word} (hx : 0 < s.items.count x) :
    (handleCheck m k s x).isMatch = true := by
  obtain ⟨hlen, hval⟩ := reachable_bloomInv hm hs
  have hxmem : x ∈ s.items := List.count_pos_iff.mp hx
  have hall : ∀ idx ∈ getHashIndices x m k, ¬ (s.bits.getD idx 0 = 0) := by
    intro idx hidx
    have h1 : 0 < (getHashIndices x m k).count idx := List.count_pos_iff.mpr hidx
    have h2 := hval idx
    have h3 := slotLoad_removeFirst m k hxmem idx
    omega
  have hfilter :
      (getHashIndices x m k).filter (fun idx => decide (s.bits.getD idx 0 = 0)) = [] := by
    rw [List.filter_eq_nil_iff]
    intro a ha
    simpa using hall a ha
  show decide
      ((((getHashIndices x m k).filter
          (fun idx => decide (s.bits.getD idx 0 = 0))).length = 0))
    = true
  rw [hfilter]
  rfl

/-- Witness for C1: insert "alpha" then check "alpha" on a fresh (20, 3)
filter (spec scenario 1). -/
theorem claimC1_no_false_negatives_witness :
    (handleCheck 20 3 (run 20 3 (initState 20) [Op.insert [97, 108, 112, 104, 97]])
        [97, 108, 112, 104, 97]).isMatch = true :=
  claimC1_no_false_negatives (by decide) (by decide)
    ⟨[Op.insert [97, 108, 112, 104, 97]], rfl⟩ (by decide)

/-- C4: Check result semantics: on any state whose counters are non-negative
(every filter state), a check matches iff every derived index has counter
`> 0`, `missingIndices` is exactly the sublist of the derived indices whose
counter is `0`, and the false-positive flag is set iff the check matched and
the item is not in `items`. -/
theorem claimC4_check_semantics (m k : Nat) (s : BloomState)
    (hb : ∀ b ∈ s.bits, 0 ≤ b) (x : Word) :
    ((handleCheck m k s x).isMatch = true
        ↔ ∀ idx ∈ (handleCheck m k s x).indices, 0 < s.bits.getD idx 0)
      ∧ (handleCheck m k s x).missingIndices
          = (handleCheck m k s x).indices.filter (fun idx => decide (s.bits.getD idx 0 = 0))
      ∧ ((handleCheck m k s x).isFalsePositive = true
          ↔ ((handleCheck m k s x).isMatch = true ∧ x ∉ s.items)) := by
  refine ⟨?_, rfl, ?_⟩
  · have h1 : (handleCheck m k s x).isMatch
        = decide ((((getHashIndices x m k).filter
            (fun idx => decide (s.bits.getD idx 0 = 0))).length = 0)) := rfl
    have h2 : (handleCheck m k s x).indices = getHashIndices x m k := rfl
    rw [h1, h2, decide_eq_true_eq]
    constructor
    · intro h idx hidx
      have h0 := getD_nonneg hb idx
      have hemp : ((getHashIndices x m k).filter
          (fun idx => decide (s.bits.getD idx 0 = 0))) = [] := List.length_eq_zero.mp h
      have h4 := List.filter_eq_nil_iff.mp hemp idx hidx
      simp only [decide_eq_true_eq] at h4
      omega
    · intro h
      rw [List.length_eq_zero, List.filter_eq_nil_iff]
      intro a ha
      have h5 := h a ha
      simp only [decide_eq_true_eq]
      omega
  · have h3 : (handleCheck m k s x).isFalsePositive
        = ((handleCheck m k s x).isMatch && !decide (x ∈ s.items)) := rfl
    rw [h3]
    constructor
    · intro h
      rw [Bool.and_eq_true] at h
      rcases h with ⟨ha, hb2⟩
      refine ⟨ha, ?_⟩
      simpa using hb2
    · rintro ⟨ha, hb2⟩
      rw [ha]
      simpa using hb2

/-- Witness for C4 on a concrete state: the fresh (20, 3) filter and the item
"alpha", instantiating the match and missing-index characterisations. -/
theorem claimC4_check_semantics_witness :
    (((handleCheck 20 3 (initState 20) [97, 108, 112, 104, 97]).isMatch = true
        ↔ ∀ idx ∈ (handleCheck 20 3 (initState 20) [97, 108, 112, 104, 97]).indices,
            0 < (initState 20).bits.getD idx 0)
      ∧ (handleCheck 20 3 (initState 20) [97, 108, 112, 104, 97]).missingIndices
          = (handleCheck 20 3 (initState 20) [97, 108, 112, 104, 97]).indices.filter
              (fun idx => decide ((initState 20).bits.getD idx 0 = 0))
      ∧ ((handleCheck 20 3 (initState 20) [97, 108, 112, 104, 97]).isFalsePositive = true
          ↔ ((handleCheck 20 3 (initState 20) [97, 108, 112, 104, 97]).isMatch = true
              ∧ [97, 108, 112, 104, 97] ∉ (initState 20).items))) :=
  claimC4_check_semantics 20 3 (initState 20) (by decide) [97, 108, 112, 104, 97]

/-- Reference definition following the spec's words: the FNV-1a fold,
`hash = (hash XOR codeUnit); hash = (hash * 16777619) mod 2^32`, by
structural recursion over the code units. -/
def specFNV1aGo : Nat → Word → Nat
  | h, [] => h
  | h, c :: cs => specFNV1aGo (((h ^^^ c) * 16777619) % 2 ^ 32) cs

/-- Reference definition following the spec's words: FNV-1a starts from
`2166136261 XOR seed` and folds each code unit. -/
def specFNV1a (input : Word) (seed : Nat) : Nat :=
  specFNV1aGo (2166136261 ^^^ seed) input

/-- Reference definition following the spec's words:
`index_i = ((h1 + i * h2) mod 2^32) mod capacity`. -/
def specHashIndex (input : Word) (capacity i : Nat) : Nat :=
  ((specFNV1a input 0x811c9dc5 + i * specFNV1a input 0x9e3779b9) % 2 ^ 32) % capacity

/-- Reference definition following the spec's words: the ordered sequence
`[index_0, ..., index_(hashCount-1)]`. -/
def specHashIndices (input : Word) (capacity hashCount : Nat) : List Nat :=
  (List.range hashCount).map (specHashIndex input capacity)

theorem specFNV1aGo_eq_foldl (l : Word) (h : Nat) :
    specFNV1aGo h l = l.foldl fnv1aStep h := by
  induction l generalizing h with
  | nil => rfl
  | cons c cs ih =>
    show specFNV1aGo (((h ^^^ c) * 16777619) % 2 ^ 32) cs
      = cs.foldl fnv1aStep (fnv1aStep h c)
    rw [ih]
    rfl

theorem fnv1a_eq_spec (input : Word) (seed : Nat) :
    fnv1a input seed = specFNV1a input seed :=
  (specFNV1aGo_eq_foldl input (2166136261 ^^^ seed)).symm

/-- C2: Hash-index derivation equals the double-hashing reference definition:
for every input, capacity `m ≥ 1` and `hashCount` `k`, `getHashIndices`
returns exactly `k` indices, each in `[0, m)`, and the sequence equals the
spec's `((h1 + i*h2) mod 2^32) mod m` for the two seeded FNV-1a values. -/
theorem claimC2_hash_indices (input : Word) (m k : Nat) (hm : 1 ≤ m) :
    getHashIndices input m k = specHashIndices input m k
      ∧ (getHashIndices input m k).length = k
      ∧ ∀ idx ∈ getHashIndices input m k, idx < m := by
  refine ⟨?_, getHashIndices_length input m k, getHashIndices_lt input hm k⟩
  unfold getHashIndices specHashIndices
  apply List.map_congr_left
  intro i _
  rw [specHashIndex, ← fnv1a_eq_spec, ← fnv1a_eq_spec]
  norm_num [U32]

/-- Witness for C2 at input "alpha", capacity 20, hashCount 3 (the spec's
reference configuration); its first derived index 4 is below 20. -/
theorem claimC2_hash_indices_witness :
    getHashIndices [97, 108, 112, 104, 97] 20 3 = specHashIndices [97, 108, 112, 104, 97] 20 3
      ∧ (getHashIndices [97, 108, 112, 104, 97] 20 3).length = 3
      ∧ 4 < 20 :=
  ⟨(claimC2_hash_indices [97, 108, 112, 104, 97] 20 3 (by decide)).1,
   (claimC2_hash_indices [97, 108, 112, 104, 97] 20 3 (by decide)).2.1,
   (claimC2_hash_indices [97, 108, 112, 104, 97] 20 3 (by decide)).2.2 4 (by decide)⟩

/-- The error the spec's constructor surfaces on a bad configuration. -/
inductive ConfigError where
  | invalidConfiguration
deriving DecidableEq, Repr

/-- A filter bundled with its configuration, as the spec's `new` returns. -/
structure BloomFilter where
  capacity : Nat
  hashCount : Nat
  state : BloomState
deriving DecidableEq, Repr

/-- Modelled from the spec: the repository has no explicit constructor
function — the UI guards the configuration by slider bounds (`min="10"`,
`min="1"`), and the spec's `new(capacity, hashCount)` "fails (or must be
guarded by caller) if either argument is < 1" with InvalidConfiguration,
before any operation is attempted; otherwise it yields the fresh filter. -/
def mkFilter (capacity hashCount : Nat) : Except ConfigError BloomFilter :=
  if capacity < 1 ∨ hashCount < 1 then
    Except.error ConfigError.invalidConfiguration
  else
    Except.ok { capacity := capacity, hashCount := hashCount, state := initState capacity }

/-- C6: Construction validation: constructing a filter with capacity < 1 or
hashCount < 1 fails with InvalidConfiguration (no filter value is produced on
which operations could misbehave). -/
theorem claimC6_construction_validation (c h : Nat) (hbad : c < 1 ∨ h < 1) :
    mkFilter c h = Except.error ConfigError.invalidConfiguration := by
  rw [mkFilter, if_pos hbad]

/-- Witness for C6: `new(capacity=0, hashCount=3)` fails (spec scenario 6). -/
theorem claimC6_construction_validation_witness :
    mkFilter 0 3 = Except.error ConfigError.invalidConfiguration :=
  claimC6_construction_validation 0 3 (by decide)

/-- C7: False-positive-rate estimator: for capacity `m ≥ 1` and hashCount
`k ≥ 1`, `calculateFalsePositiveRate` computes the asymptotic approximation
`(1 - e^(-k*n/m))^k`; it returns 0 when `n = 0`, and for fixed `(m, k)` it is
non-decreasing in `n`. -/
theorem claimC7_fp_rate (m k : Nat) (hm : 1 ≤ m) (hk : 1 ≤ k) :
    (∀ n : Nat, calculateFalsePositiveRate m k n
        = (1 - Real.exp (-(k : ℝ) * n / m)) ^ k)
      ∧ calculateFalsePositiveRate m k 0 = 0
      ∧ ∀ n n' : Nat, n ≤ n' →
          calculateFalsePositiveRate m k n ≤ calculateFalsePositiveRate m k n' := by
  have hk0 : k ≠ 0 := by omega
  have hm0 : (0 : ℝ) < (m : ℝ) := by
    have : (1 : ℝ) ≤ (m : ℝ) := by exact_mod_cast hm
    linarith
  have harg : ∀ n : Nat, -(k : ℝ) * n / m ≤ 0 := by
    intro n
    have h1 : (0 : ℝ) ≤ (k : ℝ) * n / m := by positivity
    have h2 : -(k : ℝ) * n / m = -((k : ℝ) * n / m) := by ring
    linarith [h2 ▸ neg_nonpos.mpr h1]
  have hbase : ∀ n : Nat, (0 : ℝ) ≤ 1 - Real.exp (-(k : ℝ) * n / m) := by
    intro n
    have := Real.exp_le_one_iff.mpr (harg n)
    linarith
  refine ⟨fun n => rfl, ?_, ?_⟩
  · show (1 - Real.exp (-(k : ℝ) * (0 : Nat) / m)) ^ k = 0
    norm_num [zero_pow hk0]
  · intro n n' hnn
    show (1 - Real.exp (-(k : ℝ) * n / m)) ^ k ≤ (1 - Real.exp (-(k : ℝ) * n' / m)) ^ k
    have hmono : Real.exp (-(k : ℝ) * n' / m) ≤ Real.exp (-(k : ℝ) * n / m) := by
      apply Real.exp_le_exp.mpr
      have hle : (k : ℝ) * n ≤ (k : ℝ) * n' := by
        have : (n : ℝ) ≤ (n' : ℝ) := by exact_mod_cast hnn
        nlinarith [Nat.cast_nonneg (α := ℝ) k]
      have h1 : (k : ℝ) * n / m ≤ (k : ℝ) * n' / m :=
        (div_le_div_iff_of_pos_right hm0).mpr hle
      have h2 : -(k : ℝ) * n / m = -((k : ℝ) * n / m) := by ring
      have h3 : -(k : ℝ) * n' / m = -((k : ℝ) * n' / m) := by ring
      rw [h2, h3]
      linarith
    exact pow_le_pow_left₀ (hbase n) (by linarith) k

/-- Witness for C7 at (m, k) = (20, 3): zero items give rate 0 and the rate
at one item is at most the rate at two items. -/
theorem claimC7_fp_rate_witness :
    calculateFalsePositiveRate 20 3 0 = 0
      ∧ calculateFalsePositiveRate 20 3 1 ≤ calculateFalsePositiveRate 20 3 2 :=
  ⟨(claimC7_fp_rate 20 3 (by decide) (by decide)).2.1,
   (claimC7_fp_rate 20 3 (by decide) (by decide)).2.2 1 2 (by decide)⟩

/-- C8: Insert–Delete round trip: from any reachable state, inserting `x` and
immediately deleting it succeeds, restores the counter array exactly (the
clamp at 0 never fires), and restores `items` up to permutation (the delete
removes the first matching occurrence, not necessarily the appended one). -/
theorem claimC8_insert_delete_roundtrip {m k : Nat} (hm : 1 ≤ m) {s : BloomState}
    (hs : Reachable m k s) (x : Word) :
    handleDelete m k (handleInsert m k s x) x
        = Except.ok { bits := s.bits, items := removeFirst x (s.items ++ [x]) }
      ∧ (removeFirst x (s.items ++ [x])).Perm s.items := by
  obtain ⟨hlen, hval⟩ := reachable_bloomInv hm hs
  have hmem2 : x ∈ s.items ++ [x] := by simp
  constructor
  · have hidx : ∀ a ∈ getHashIndices x m k, a < s.bits.length := by
      intro a ha
      rw [hlen]
      exact getHashIndices_lt x hm k a ha
    have hidx2 : ∀ a ∈ getHashIndices x m k,
        a < (applyInserts s.bits (getHashIndices x m k)).length := by
      intro a ha
      rw [applyInserts_length]
      exact hidx a ha
    have hnn : ∀ j : Nat, 0 ≤ s.bits.getD j 0 := by
      intro j
      rw [hval j]
      exact Int.natCast_nonneg _
    have hins := applyInserts_getD s.bits _ hidx
    have hcnt : ∀ j : Nat, (((getHashIndices x m k).count j : Int))
        ≤ (applyInserts s.bits (getHashIndices x m k)).getD j 0 := by
      intro j
      rw [hins j]
      have := hnn j
      omega
    have hbitseq : applyDeletes (applyInserts s.bits (getHashIndices x m k))
        (getHashIndices x m k) = s.bits := by
      apply list_eq_of_getD
      · rw [applyDeletes_length, applyInserts_length]
      · intro j
        rw [applyDeletes_getD _ _ hidx2 hcnt j, hins j]
        ring
    have hstep : handleDelete m k (handleInsert m k s x) x
        = Except.ok { bits := applyDeletes (applyInserts s.bits (getHashIndices x m k))
                        (getHashIndices x m k),
                      items := removeFirst x (s.items ++ [x]) } := by
      show handleDelete m k
          { bits := applyInserts s.bits (getHashIndices x m k), items := s.items ++ [x] } x = _
      rw [handleDelete, if_pos hmem2]
    rw [hstep, hbitseq]
  · have h1 := removeFirst_perm hmem2
    have h2 := List.perm_append_singleton x s.items
    exact (h1.symm.trans h2).cons_inv

/-- Witness for C8: inserting then deleting "beta" on the fresh (20, 3)
filter returns the fresh counters and empty item list (spec scenario 3). -/
theorem claimC8_insert_delete_roundtrip_witness :
    handleDelete 20 3 (handleInsert 20 3 (initState 20) [98, 101, 116, 97]) [98, 101, 116, 97]
        = Except.ok { bits := (initState 20).bits,
                      items := removeFirst [98, 101, 116, 97]
                        ((initState 20).items ++ [[98, 101, 116, 97]]) }
      ∧ (removeFirst [98, 101, 116, 97]
          ((initState 20).items ++ [[98, 101, 116, 97]])).Perm (initState 20).items :=
  claimC8_insert_delete_roundtrip (by decide) ⟨[], rfl⟩ [98, 101, 116, 97]

theorem intList_sum_eq_sum_getD (l : List Int) :
    l.sum = ∑ j ∈ Finset.range l.length, l.getD j 0 := by
  induction l with
  | nil => simp
  | cons a l ih =>
    rw [List.sum_cons, List.length_cons, Finset.sum_range_succ']
    simp only [List.getD_cons_succ, List.getD_cons_zero]
    rw [← ih]
    ring

theorem sum_count_eq_length {mm : Nat} (L : List Nat) (hL : ∀ x ∈ L, x < mm) :
    ∑ j ∈ Finset.range mm, L.count j = L.length := by
  induction L with
  | nil => simp
  | cons a L ih =>
    have ha : a < mm := hL a (List.mem_cons_self a L)
    have hL' : ∀ x ∈ L, x < mm := fun x hx => hL x (List.mem_cons_of_mem a hx)
    have hcc : ∀ j, (a :: L).count j = L.count j + if a = j then 1 else 0 := by
      intro j
      rw [List.count_cons]
      simp [beq_iff_eq]
    rw [List.length_cons, ← ih hL']
    rw [Finset.sum_congr rfl (fun j _ => hcc j), Finset.sum_add_distrib, Finset.sum_ite_eq]
    simp [Finset.mem_range.mpr ha]

theorem sum_slotLoad {m k : Nat} (hm : 1 ≤ m) (items : List Word) :
    ∑ j ∈ Finset.range m, slotLoad m k items j = k * items.length := by
  induction items with
  | nil => simp [slotLoad]
  | cons w items ih =>
    have hcons : ∀ j, slotLoad m k (w :: items) j
        = (getHashIndices w m k).count j + slotLoad m k items j := by
      intro j
      simp [slotLoad]
    rw [Finset.sum_congr rfl (fun j _ => hcons j), Finset.sum_add_distrib, ih,
      sum_count_eq_length _ (getHashIndices_lt w hm k), getHashIndices_length,
      List.length_cons]
    ring

/-- C10: Implicit counter-sum invariant: in every reachable state of a
validly-sized filter with hashCount `k`, the sum of all counters equals
`k × (number of entries in items)` — each insert adds exactly `k` to the
total and each successful delete removes exactly `k`, the clamp never firing
for a present member. -/
theorem claimC10_counter_sum {m k : Nat} (hm : 1 ≤ m) {s : BloomState}
    (hs : Reachable m k s) :
    s.bits.sum = ((k * s.items.length : Nat) : Int) := by
  obtain ⟨hlen, hval⟩ := reachable_bloomInv hm hs
  rw [intList_sum_eq_sum_getD, hlen]
  rw [Finset.sum_congr rfl (fun j _ => hval j)]
  rw [← Nat.cast_sum]
  exact_mod_cast congrArg (fun n : Nat => (n : Int)) (sum_slotLoad hm s.items)

/-- Witness for C10 after two inserts on the fresh (20, 3) filter: the
counters sum to 3 × 2. -/
theorem claimC10_counter_sum_witness :
    (run 20 3 (initState 20) [Op.insert [97], Op.insert [98]]).bits.sum
      = ((3 * (run 20 3 (initState 20) [Op.insert [97], Op.insert [98]]).items.length
          : Nat) : Int) :=
  claimC10_counter_sum (by decide) ⟨[Op.insert [97], Op.insert [98]], rfl⟩
